import Mathlib

/-!
# stcp interface: `logSumExp` and the `IStcp` controller contract

Shallow embedding of `src/stcp_interface.h`.

* The C++ `double` is idealised as a linear ordered field `α`; `std::exp` and
  `std::log` are passed as functions `exp log : α → α`, so every definition is
  an ordinary computable function.  The theorems stated for exact real arithmetic
  instantiate `α := ℝ`, `exp := Real.exp`, `log := Real.log`.
* Where binary64 behaves differently from exact arithmetic, this is made explicit:
  `exp_underflow` is `std::exp` returning `0` on very negative arguments,
  `round_binary64` is rounding to nearest even, and `logSumExp_rounded` is
  `logSumExp` with every arithmetic result rounded.
* A thrown C++ exception is an `Except.error`.
* The interface `IGeneralE` is a record of its four virtual methods over an
  explicit state type `σ`.
-/

namespace stcp

/-! ## Definitions translated from `stcp_interface.h` -/

/-- Exceptions thrown by the header: `std::runtime_error` carrying its `what()` text. -/
inductive Exception where
  | runtime_error (what : String)
  deriving DecidableEq, Repr

/-- The scan of `std::max_element` after the first element: `largest` is replaced
only by a strictly larger element, so the first maximal element is kept. -/
def max_element_loop {α : Type} [LinearOrderedField α] (largest : α) : List α → α
  | [] => largest
  | y :: ys => if largest < y then max_element_loop y ys else max_element_loop largest ys

/-- The value `*std::max_element(xs.begin(), xs.end())`; `none` stands for the
past-the-end iterator returned on an empty range. -/
def max_element {α : Type} [LinearOrderedField α] : List α → Option α
  | [] => none
  | x :: xs => some (max_element_loop x xs)

/-- The accumulation loop of `logSumExp` (lines 25-29):
`sum_exp += std::exp(x - max_x)` for each `x`, left to right, from `sum_exp`. -/
def sum_exp_loop {α : Type} [LinearOrderedField α] (exp : α → α) (max_x : α)
    (sum_exp : α) : List α → α
  | [] => sum_exp
  | x :: xs => sum_exp_loop exp max_x (sum_exp + exp (x - max_x)) xs

/-- The function `logSumExp` (lines 18-32).  The `none` branch is the guard
`xs.empty()` of lines 20-23 (the range has no maximum exactly when it is empty); the
`some` branch is lines 24-31. -/
def logSumExp {α : Type} [LinearOrderedField α] (exp log : α → α) (xs : List α) :
    Except Exception α :=
  match max_element xs with
  | none =>
      Except.error
        (Exception.runtime_error "Empty vector is not allowed for the logSumExp function.")
  | some max_x =>
      let sum_exp := sum_exp_loop exp max_x 0 xs
      Except.ok (log sum_exp + max_x)

/-! ### `logSumExp` on binary64

The definitions above take `+` and `-` exactly.  The definitions below make the two
binary64 effects explicit that exact arithmetic hides: `std::exp` underflowing to zero,
and every arithmetic result being rounded to a representable value. -/

/-- Underflow of `std::exp` on binary64: for an argument below `-746` the exact
exponential is smaller than half the least positive double `2^(-1074)`, so the call
returns exactly `0`; other arguments get the value of `exp`. -/
def exp_underflow {α : Type} [LinearOrderedField α] (exp : α → α) (t : α) : α :=
  if t < -746 then 0 else exp t

/-- Rounding of a value to binary64, to nearest with ties to even: the quantum is
`2^(e-52)` for the binary exponent `e` of `x`, and `2^(-1074)` in the subnormal range.
Values beyond the largest finite double (which round to an infinity) are outside this
definition's scope. -/
def round_binary64 {α : Type} [LinearOrderedField α] [FloorRing α] (x : α) : α :=
  if x = 0 then 0
  else
    let e : ℤ := max (Int.log 2 |x|) (-1022)
    let q : α := (2 : α) ^ (e - 52)
    let y : α := x / q
    let f : ℤ := ⌊y⌋
    let r : α := y - (f : α)
    let n : ℤ :=
      if r < 1 / 2 then f
      else if 1 / 2 < r then f + 1
      else if f % 2 = 0 then f else f + 1
    (n : α) * q

/-- The accumulation loop of `logSumExp` (lines 25-29) with the rounding of each
arithmetic result made explicit: `rnd` is applied to `x - max_x` and to the updated
`sum_exp`; `exp` stands for `std::exp` as a function from doubles to doubles. -/
def sum_exp_loop_rounded {α : Type} [LinearOrderedField α] (rnd exp : α → α) (max_x : α)
    (sum_exp : α) : List α → α
  | [] => sum_exp
  | x :: xs =>
    sum_exp_loop_rounded rnd exp max_x (rnd (sum_exp + exp (rnd (x - max_x)))) xs

/-- The function `logSumExp` (lines 18-32) with the rounding of each arithmetic result
made explicit: as `logSumExp`, with `rnd` applied to every `-` and `+`; `exp` and `log`
stand for `std::exp` and `std::log` as functions from doubles to doubles.  With
`rnd := id` this is `logSumExp`. -/
def logSumExp_rounded {α : Type} [LinearOrderedField α] (rnd exp log : α → α)
    (xs : List α) : Except Exception α :=
  match max_element xs with
  | none =>
      Except.error
        (Exception.runtime_error "Empty vector is not allowed for the logSumExp function.")
  | some max_x =>
      let sum_exp := sum_exp_loop_rounded rnd exp max_x 0 xs
      Except.ok (rnd (log sum_exp + max_x))

/-- The interface `IGeneralE` (lines 60-69): its four pure-virtual methods, with the
implementing object's state made explicit as `σ`. -/
structure IGeneralE (α σ : Type) where
  getLogValue : σ → α
  reset : σ → σ
  updateLogValue : σ → α → σ
  updateLogValueByAvg : σ → α → α → σ

/-! ## The sequential-test controller behind `IStcp`

The header only declares `IStcp` (lines 71-99, all methods pure virtual); the class
implementing it is not part of the header.  Its behaviour is modelled from
section 4.5 (and sections 5, 7) of the specification. -/

/-- Modelled from the spec: the error kind raised by the avg-based methods of the class
implementing `IStcp`, which is missing from the header (section 7: `DomainError`
for `n ≤ 0`). -/
inductive Failure where
  | DomainError
  deriving DecidableEq, Repr

/-- Modelled from the spec: the fields of the class implementing `IStcp`, which is
missing from the header (section 4.5: `logValue`, `threshold`, `time`, `stoppedTime`,
the RUNNING/STOPPED state, and the owned GeneralEValue `e_obj`). -/
structure Stcp (α σ : Type) where
  e_obj : σ
  logValue : α
  threshold : α
  time : α
  stopped : Bool
  stoppedTime : α

/-- Modelled from the spec: accessor `getLogValue` of the missing `IStcp` implementation,
a pure read (section 4.5). -/
def Stcp.getLogValue {α σ : Type} (s : Stcp α σ) : α := s.logValue

/-- Modelled from the spec: accessor `getThreshold` of the missing `IStcp`
implementation, a pure read (section 4.5). -/
def Stcp.getThreshold {α σ : Type} (s : Stcp α σ) : α := s.threshold

/-- Modelled from the spec: accessor `isStopped` of the missing `IStcp` implementation,
a pure read (section 4.5). -/
def Stcp.isStopped {α σ : Type} (s : Stcp α σ) : Bool := s.stopped

/-- Modelled from the spec: accessor `getTime` of the missing `IStcp` implementation,
a pure read (section 4.5). -/
def Stcp.getTime {α σ : Type} (s : Stcp α σ) : α := s.time

/-- Modelled from the spec: accessor `getStoppedTime` of the missing `IStcp`
implementation, a pure read (section 4.5). -/
def Stcp.getStoppedTime {α σ : Type} (s : Stcp α σ) : α := s.stoppedTime

/-- Modelled from the spec: construction of the missing `IStcp` implementation
(section 3: log value starts at 0, time at 0, `stoppedTime` at the sentinel, state
RUNNING; the threshold is fixed here).  The representation of the sentinel is left
open by the spec and is a parameter. -/
def Stcp.construct {α σ : Type} [LinearOrderedField α] (sentinel threshold : α) (e : σ) :
    Stcp α σ :=
  { e_obj := e, logValue := 0, threshold := threshold, time := 0,
    stopped := false, stoppedTime := sentinel }

/-- Modelled from the spec: `reset()` of the missing `IStcp` implementation (section 4.5:
sets `time=0`, `logValue=0`, `stoppedTime=sentinel`, state RUNNING, and delegates to
the owned GeneralEValue's `reset()`). -/
def Stcp.reset {α σ : Type} [LinearOrderedField α] (E : IGeneralE α σ) (sentinel : α)
    (s : Stcp α σ) : Stcp α σ :=
  { e_obj := E.reset s.e_obj, logValue := 0, threshold := s.threshold, time := 0,
    stopped := false, stoppedTime := sentinel }

/-- Modelled from the spec: the threshold comparison and stop latch shared by the single
updates of the missing `IStcp` implementation (section 4.5: if the state is RUNNING and
`logValue ≥ threshold`, go to STOPPED and latch `stoppedTime = time`). -/
def Stcp.latch {α σ : Type} [LinearOrderedField α] (s : Stcp α σ) : Stcp α σ :=
  if s.stopped = false ∧ s.threshold ≤ s.logValue then
    { s with stopped := true, stoppedTime := s.time }
  else s

/-- Modelled from the spec: `updateLogValue(x)` of the missing `IStcp` implementation
(section 4.5: always consumes `x`, increments `time` by 1, recomputes `logValue` via the
GeneralEValue, then applies the latch). -/
def Stcp.updateLogValue {α σ : Type} [LinearOrderedField α] (E : IGeneralE α σ)
    (s : Stcp α σ) (x : α) : Stcp α σ :=
  let e := E.updateLogValue s.e_obj x
  Stcp.latch { s with e_obj := e, logValue := E.getLogValue e, time := s.time + 1 }

/-- Modelled from the spec: `updateLogValues(xs)` of the missing `IStcp` implementation
(section 4.5: `updateLogValue` on every element in order, no early exit). -/
def Stcp.updateLogValues {α σ : Type} [LinearOrderedField α] (E : IGeneralE α σ)
    (s : Stcp α σ) : List α → Stcp α σ
  | [] => s
  | x :: xs => Stcp.updateLogValues E (Stcp.updateLogValue E s x) xs

/-- Modelled from the spec: `updateLogValuesUntilStop(xs)` of the missing `IStcp`
implementation (section 4.5: `updateLogValue` on the elements in order, stopping as soon
as the state is STOPPED; section 5: by inspecting the state after each step). -/
def Stcp.updateLogValuesUntilStop {α σ : Type} [LinearOrderedField α] (E : IGeneralE α σ)
    (s : Stcp α σ) : List α → Stcp α σ
  | [] => s
  | x :: xs =>
    let s1 := Stcp.updateLogValue E s x
    if s1.stopped then s1 else Stcp.updateLogValuesUntilStop E s1 xs

/-- Modelled from the spec: `updateLogValueByAvg(x_bar, n)` of the missing `IStcp`
implementation (section 4.5: fails with `DomainError` when `n ≤ 0`; otherwise the pair
counts as `n` observations summarised by `x_bar`, so `time` advances by `n`, and
`logValue` is recomputed via the GeneralEValue before the latch). -/
def Stcp.updateLogValueByAvg {α σ : Type} [LinearOrderedField α] (E : IGeneralE α σ)
    (s : Stcp α σ) (x_bar n : α) : Except Failure (Stcp α σ) :=
  if n ≤ 0 then Except.error Failure.DomainError
  else
    let e := E.updateLogValueByAvg s.e_obj x_bar n
    Except.ok (Stcp.latch { s with e_obj := e, logValue := E.getLogValue e, time := s.time + n })

/-- Modelled from the spec: `updateLogValuesByAvgs` of the missing `IStcp` implementation
(section 4.5), on the list of pairs `(x_bar, n)`; a failure on any pair fails the whole
call, which then yields no new state (section 7: no partial mutation). -/
def Stcp.updateLogValuesByAvgs {α σ : Type} [LinearOrderedField α] (E : IGeneralE α σ)
    (s : Stcp α σ) : List (α × α) → Except Failure (Stcp α σ)
  | [] => Except.ok s
  | p :: ps =>
    match Stcp.updateLogValueByAvg E s p.1 p.2 with
    | Except.error err => Except.error err
    | Except.ok s1 => Stcp.updateLogValuesByAvgs E s1 ps

/-- Modelled from the spec: `updateLogValuesUntilStopByAvgs` of the missing `IStcp`
implementation (section 4.5), on the list of pairs `(x_bar, n)`; pairs after the stop
are never examined. -/
def Stcp.updateLogValuesUntilStopByAvgs {α σ : Type} [LinearOrderedField α]
    (E : IGeneralE α σ) (s : Stcp α σ) : List (α × α) → Except Failure (Stcp α σ)
  | [] => Except.ok s
  | p :: ps =>
    match Stcp.updateLogValueByAvg E s p.1 p.2 with
    | Except.error err => Except.error err
    | Except.ok s1 =>
      if s1.stopped then Except.ok s1 else Stcp.updateLogValuesUntilStopByAvgs E s1 ps

/-- Modelled from the spec: `updateAndReturnHistory(x)` of the missing `IStcp`
implementation (section 4.5: the effect of `updateLogValue(x)`, additionally returning
the post-update `logValue`). -/
def Stcp.updateAndReturnHistory {α σ : Type} [LinearOrderedField α] (E : IGeneralE α σ)
    (s : Stcp α σ) (x : α) : Stcp α σ × α :=
  let s1 := Stcp.updateLogValue E s x
  (s1, s1.getLogValue)

/-- Modelled from the spec: `updateAndReturnHistories(xs)` of the missing `IStcp`
implementation (section 4.5: every element in order, no early exit, collecting the
post-update log values). -/
def Stcp.updateAndReturnHistories {α σ : Type} [LinearOrderedField α] (E : IGeneralE α σ)
    (s : Stcp α σ) : List α → Stcp α σ × List α
  | [] => (s, [])
  | x :: xs =>
    let r := Stcp.updateAndReturnHistory E s x
    let rs := Stcp.updateAndReturnHistories E r.1 xs
    (rs.1, r.2 :: rs.2)

/-- Modelled from the spec: `updateAndReturnHistoryByAvg(x_bar, n)` of the missing
`IStcp` implementation (section 4.5). -/
def Stcp.updateAndReturnHistoryByAvg {α σ : Type} [LinearOrderedField α]
    (E : IGeneralE α σ) (s : Stcp α σ) (x_bar n : α) : Except Failure (Stcp α σ × α) :=
  match Stcp.updateLogValueByAvg E s x_bar n with
  | Except.error err => Except.error err
  | Except.ok s1 => Except.ok (s1, s1.getLogValue)

/-- Modelled from the spec: `updateAndReturnHistoriesByAvgs` of the missing `IStcp`
implementation (section 4.5), on the list of pairs `(x_bar, n)`. -/
def Stcp.updateAndReturnHistoriesByAvgs {α σ : Type} [LinearOrderedField α]
    (E : IGeneralE α σ) (s : Stcp α σ) : List (α × α) → Except Failure (Stcp α σ × List α)
  | [] => Except.ok (s, [])
  | p :: ps =>
    match Stcp.updateAndReturnHistoryByAvg E s p.1 p.2 with
    | Except.error err => Except.error err
    | Except.ok r =>
      match Stcp.updateAndReturnHistoriesByAvgs E r.1 ps with
      | Except.error err => Except.error err
      | Except.ok rs => Except.ok (rs.1, r.2 :: rs.2)

/-- The update calls declared by `IStcp` (lines 83-96), as data, so that sequences of
calls can be quantified over.  The two parallel vectors of the avg-based batch methods
are given as one list of pairs. -/
inductive Call (α : Type) where
  | updateLogValue (x : α)
  | updateLogValues (xs : List α)
  | updateLogValuesUntilStop (xs : List α)
  | updateLogValueByAvg (x_bar n : α)
  | updateLogValuesByAvgs (ps : List (α × α))
  | updateLogValuesUntilStopByAvgs (ps : List (α × α))
  | updateAndReturnHistory (x : α)
  | updateAndReturnHistories (xs : List α)
  | updateAndReturnHistoryByAvg (x_bar n : α)
  | updateAndReturnHistoriesByAvgs (ps : List (α × α))

/-- The controller after a fallible call: the new state, or the old one when the call
failed (a failed call mutates nothing). -/
def Stcp.orKeep {α σ β : Type} (s : Stcp α σ) (f : β → Stcp α σ) :
    Except Failure β → Stcp α σ
  | Except.ok b => f b
  | Except.error _ => s

/-- The controller state after one update call. -/
def Stcp.perform {α σ : Type} [LinearOrderedField α] (E : IGeneralE α σ) (s : Stcp α σ) :
    Call α → Stcp α σ
  | Call.updateLogValue x => s.updateLogValue E x
  | Call.updateLogValues xs => s.updateLogValues E xs
  | Call.updateLogValuesUntilStop xs => s.updateLogValuesUntilStop E xs
  | Call.updateLogValueByAvg x_bar n => s.orKeep id (s.updateLogValueByAvg E x_bar n)
  | Call.updateLogValuesByAvgs ps => s.orKeep id (s.updateLogValuesByAvgs E ps)
  | Call.updateLogValuesUntilStopByAvgs ps =>
    s.orKeep id (s.updateLogValuesUntilStopByAvgs E ps)
  | Call.updateAndReturnHistory x => (s.updateAndReturnHistory E x).1
  | Call.updateAndReturnHistories xs => (s.updateAndReturnHistories E xs).1
  | Call.updateAndReturnHistoryByAvg x_bar n =>
    s.orKeep Prod.fst (s.updateAndReturnHistoryByAvg E x_bar n)
  | Call.updateAndReturnHistoriesByAvgs ps =>
    s.orKeep Prod.fst (s.updateAndReturnHistoriesByAvgs E ps)

/-- The controller state after a sequence of update calls, in order. -/
def Stcp.run {α σ : Type} [LinearOrderedField α] (E : IGeneralE α σ) (s : Stcp α σ) :
    List (Call α) → Stcp α σ
  | [] => s
  | c :: cs => Stcp.run E (s.perform E c) cs

/-- A concrete GeneralEValue over the rationals, used to evaluate the controller on
inputs: the log value is the running sum of the observations. -/
def sumE : IGeneralE ℚ ℚ :=
  { getLogValue := fun e => e
    reset := fun _ => 0
    updateLogValue := fun e x => e + x
    updateLogValueByAvg := fun e x_bar n => e + n * x_bar }

/-- The relation between a controller state `s` and a later state `t` that the latch
theorems are proved through: time does not go back, a latched stop stays latched at the
same stopped time, and a stop latched in between is not later than the current time. -/
def Stcp.Advances {α σ : Type} [LinearOrderedField α] (s t : Stcp α σ) : Prop :=
  s.time ≤ t.time ∧
  (s.stopped = true → t.stopped = true ∧ t.stoppedTime = s.stoppedTime) ∧
  (s.stopped = false → t.stopped = true → t.stoppedTime ≤ t.time)

/-! ## Lemmas on `logSumExp` -/

theorem max_element_loop_ge {α : Type} [LinearOrderedField α] (ys : List α) (a : α) :
    a ≤ max_element_loop a ys ∧ ∀ y ∈ ys, y ≤ max_element_loop a ys := by
  induction ys generalizing a with
  | nil => simp [max_element_loop]
  | cons y ys ih =>
    simp only [max_element_loop]
    split
    · rename_i h
      obtain ⟨h1, h2⟩ := ih y
      refine ⟨le_trans (le_of_lt h) h1, ?_⟩
      intro z hz
      rcases List.mem_cons.mp hz with rfl | hz
      · exact h1
      · exact h2 z hz
    · rename_i h
      obtain ⟨h1, h2⟩ := ih a
      refine ⟨h1, ?_⟩
      intro z hz
      rcases List.mem_cons.mp hz with rfl | hz
      · exact le_trans (not_lt.mp h) h1
      · exact h2 z hz

theorem max_element_loop_mem {α : Type} [LinearOrderedField α] (ys : List α) (a : α) :
    max_element_loop a ys ∈ a :: ys := by
  induction ys generalizing a with
  | nil => simp [max_element_loop]
  | cons y ys ih =>
    simp only [max_element_loop]
    split
    · have := ih y
      exact List.mem_cons_of_mem _ this
    · have := ih a
      rcases List.mem_cons.mp this with h | h
      · rw [h]; exact List.mem_cons_self _ _
      · exact List.mem_cons_of_mem _ (List.mem_cons_of_mem _ h)

theorem max_element_of_ne_nil {α : Type} [LinearOrderedField α] (xs : List α) (h : xs ≠ []) :
    ∃ m, max_element xs = some m ∧ m ∈ xs ∧ ∀ x ∈ xs, x ≤ m := by
  cases xs with
  | nil => exact absurd rfl h
  | cons x xs =>
    refine ⟨max_element_loop x xs, rfl, max_element_loop_mem xs x, ?_⟩
    intro z hz
    obtain ⟨h1, h2⟩ := max_element_loop_ge xs x
    rcases List.mem_cons.mp hz with rfl | hz
    · exact h1
    · exact h2 z hz

theorem sum_exp_loop_eq {α : Type} [LinearOrderedField α] (exp : α → α) (m : α)
    (xs : List α) (s : α) :
    sum_exp_loop exp m s xs = s + (xs.map (fun x => exp (x - m))).sum := by
  induction xs generalizing s with
  | nil => simp [sum_exp_loop]
  | cons x xs ih =>
    simp only [sum_exp_loop, List.map_cons, List.sum_cons]
    rw [ih]
    ring

theorem sum_exp_shift (m : ℝ) (xs : List ℝ) :
    (xs.map (fun x => Real.exp (x - m))).sum = Real.exp (-m) * (xs.map Real.exp).sum := by
  induction xs with
  | nil => simp
  | cons x xs ih =>
    simp only [List.map_cons, List.sum_cons, ih]
    rw [sub_eq_add_neg, Real.exp_add]
    ring

theorem sum_exp_pos (xs : List ℝ) (h : xs ≠ []) : 0 < (xs.map Real.exp).sum := by
  cases xs with
  | nil => exact absurd rfl h
  | cons x xs =>
    simp only [List.map_cons, List.sum_cons]
    have h1 : 0 < Real.exp x := Real.exp_pos x
    have h2 : 0 ≤ (xs.map Real.exp).sum := by
      apply List.sum_nonneg
      intro y hy
      obtain ⟨z, _, rfl⟩ := List.mem_map.mp hy
      exact (Real.exp_pos z).le
    linarith

/-- Closed form of `logSumExp` over exact reals, shared by the theorems below. -/
theorem logSumExp_closed (xs : List ℝ) (h : xs ≠ []) :
    logSumExp Real.exp Real.log xs = Except.ok (Real.log ((xs.map Real.exp).sum)) := by
  obtain ⟨m, hm, -, -⟩ := max_element_of_ne_nil xs h
  simp only [logSumExp, hm]
  congr 1
  rw [sum_exp_loop_eq, zero_add, sum_exp_shift,
    Real.log_mul (Real.exp_pos _).ne' (sum_exp_pos xs h).ne', Real.log_exp]
  ring

theorem Stcp.Advances.refl {α σ : Type} [LinearOrderedField α] (s : Stcp α σ) :
    Stcp.Advances s s := by
  refine ⟨le_refl _, fun h => ⟨h, rfl⟩, ?_⟩
  intro h1 h2
  rw [h1] at h2
  exact absurd h2 (by decide)

theorem Stcp.Advances.trans {α σ : Type} [LinearOrderedField α] {s t u : Stcp α σ}
    (hst : Stcp.Advances s t) (htu : Stcp.Advances t u) : Stcp.Advances s u := by
  obtain ⟨a1, a2, a3⟩ := hst
  obtain ⟨b1, b2, b3⟩ := htu
  refine ⟨le_trans a1 b1, ?_, ?_⟩
  · intro hs
    obtain ⟨ht, hts⟩ := a2 hs
    obtain ⟨hu, hut⟩ := b2 ht
    exact ⟨hu, hut.trans hts⟩
  · intro hs hu
    cases ht : t.stopped with
    | true =>
      obtain ⟨_, hut⟩ := b2 ht
      rw [hut]
      exact le_trans (a3 hs ht) b1
    | false => exact b3 ht hu

theorem Stcp.latch_time {α σ : Type} [LinearOrderedField α] (s : Stcp α σ) :
    s.latch.time = s.time := by
  unfold Stcp.latch
  split <;> rfl

theorem Stcp.latch_logValue {α σ : Type} [LinearOrderedField α] (s : Stcp α σ) :
    s.latch.logValue = s.logValue := by
  unfold Stcp.latch
  split <;> rfl

theorem Stcp.latch_Advances {α σ : Type} [LinearOrderedField α] (s t : Stcp α σ)
    (htime : s.time ≤ t.time) (hstop : t.stopped = s.stopped)
    (hst : t.stoppedTime = s.stoppedTime) : Stcp.Advances s t.latch := by
  unfold Stcp.latch
  split
  · rename_i h
    refine ⟨htime, ?_, ?_⟩
    · intro hs
      rw [hstop, hs] at h
      exact absurd h.1 (by decide)
    · intro _ _
      exact le_refl _
  · refine ⟨htime, ?_, ?_⟩
    · intro hs
      exact ⟨hstop.trans hs, hst⟩
    · intro hs ht
      rw [hstop, hs] at ht
      exact absurd ht (by decide)

theorem Stcp.updateLogValue_time {α σ : Type} [LinearOrderedField α] (E : IGeneralE α σ)
    (s : Stcp α σ) (x : α) : (s.updateLogValue E x).time = s.time + 1 := by
  simp only [Stcp.updateLogValue, Stcp.latch_time]

theorem Stcp.updateLogValue_Advances {α σ : Type} [LinearOrderedField α]
    (E : IGeneralE α σ) (s : Stcp α σ) (x : α) :
    Stcp.Advances s (s.updateLogValue E x) := by
  unfold Stcp.updateLogValue
  apply Stcp.latch_Advances
  · simp
  · rfl
  · rfl

theorem Stcp.updateLogValues_Advances {α σ : Type} [LinearOrderedField α]
    (E : IGeneralE α σ) (s : Stcp α σ) (xs : List α) :
    Stcp.Advances s (s.updateLogValues E xs) := by
  induction xs generalizing s with
  | nil => exact Stcp.Advances.refl s
  | cons x xs ih =>
    simp only [Stcp.updateLogValues]
    exact (Stcp.updateLogValue_Advances E s x).trans (ih _)

theorem Stcp.updateLogValuesUntilStop_Advances {α σ : Type} [LinearOrderedField α]
    (E : IGeneralE α σ) (s : Stcp α σ) (xs : List α) :
    Stcp.Advances s (s.updateLogValuesUntilStop E xs) := by
  induction xs generalizing s with
  | nil => exact Stcp.Advances.refl s
  | cons x xs ih =>
    simp only [Stcp.updateLogValuesUntilStop]
    split
    · exact Stcp.updateLogValue_Advances E s x
    · exact (Stcp.updateLogValue_Advances E s x).trans (ih _)

theorem Stcp.updateLogValueByAvg_Advances {α σ : Type} [LinearOrderedField α]
    (E : IGeneralE α σ) (s t : Stcp α σ) (x_bar n : α)
    (h : s.updateLogValueByAvg E x_bar n = Except.ok t) : Stcp.Advances s t := by
  unfold Stcp.updateLogValueByAvg at h
  split at h
  · exact absurd h (by simp)
  · rename_i hn
    have ht : t = _ := (Except.ok.inj h).symm
    rw [ht]
    apply Stcp.latch_Advances
    · have : 0 < n := not_le.mp hn
      simp only [le_add_iff_nonneg_right]
      exact this.le
    · rfl
    · rfl

theorem Stcp.updateLogValuesByAvgs_Advances {α σ : Type} [LinearOrderedField α]
    (E : IGeneralE α σ) (s t : Stcp α σ) (ps : List (α × α))
    (h : s.updateLogValuesByAvgs E ps = Except.ok t) : Stcp.Advances s t := by
  induction ps generalizing s with
  | nil =>
    simp only [Stcp.updateLogValuesByAvgs] at h
    rw [← Except.ok.inj h]
    exact Stcp.Advances.refl s
  | cons p ps ih =>
    simp only [Stcp.updateLogValuesByAvgs] at h
    split at h
    · exact absurd h (by simp)
    · rename_i s1 h1
      exact (Stcp.updateLogValueByAvg_Advances E s s1 _ _ h1).trans (ih s1 h)

theorem Stcp.updateLogValuesUntilStopByAvgs_Advances {α σ : Type} [LinearOrderedField α]
    (E : IGeneralE α σ) (s t : Stcp α σ) (ps : List (α × α))
    (h : s.updateLogValuesUntilStopByAvgs E ps = Except.ok t) : Stcp.Advances s t := by
  induction ps generalizing s with
  | nil =>
    simp only [Stcp.updateLogValuesUntilStopByAvgs] at h
    rw [← Except.ok.inj h]
    exact Stcp.Advances.refl s
  | cons p ps ih =>
    simp only [Stcp.updateLogValuesUntilStopByAvgs] at h
    split at h
    · exact absurd h (by simp)
    · rename_i s1 h1
      have a1 := Stcp.updateLogValueByAvg_Advances E s s1 _ _ h1
      split at h
      · rw [← Except.ok.inj h]
        exact a1
      · exact a1.trans (ih s1 h)

theorem Stcp.updateAndReturnHistories_fst {α σ : Type} [LinearOrderedField α]
    (E : IGeneralE α σ) (s : Stcp α σ) (xs : List α) :
    (s.updateAndReturnHistories E xs).1 = s.updateLogValues E xs := by
  induction xs generalizing s with
  | nil => rfl
  | cons x xs ih =>
    simp only [Stcp.updateAndReturnHistories, Stcp.updateLogValues, Stcp.updateAndReturnHistory]
    exact ih _

theorem Stcp.updateAndReturnHistoryByAvg_Advances {α σ : Type} [LinearOrderedField α]
    (E : IGeneralE α σ) (s : Stcp α σ) (x_bar n : α) (r : Stcp α σ × α)
    (h : s.updateAndReturnHistoryByAvg E x_bar n = Except.ok r) : Stcp.Advances s r.1 := by
  unfold Stcp.updateAndReturnHistoryByAvg at h
  split at h
  · exact absurd h (by simp)
  · rename_i s1 h1
    rw [← Except.ok.inj h]
    exact Stcp.updateLogValueByAvg_Advances E s s1 _ _ h1

theorem Stcp.updateAndReturnHistoriesByAvgs_Advances {α σ : Type} [LinearOrderedField α]
    (E : IGeneralE α σ) (s : Stcp α σ) (ps : List (α × α)) (r : Stcp α σ × List α)
    (h : s.updateAndReturnHistoriesByAvgs E ps = Except.ok r) : Stcp.Advances s r.1 := by
  induction ps generalizing s r with
  | nil =>
    simp only [Stcp.updateAndReturnHistoriesByAvgs] at h
    rw [← Except.ok.inj h]
    exact Stcp.Advances.refl s
  | cons p ps ih =>
    simp only [Stcp.updateAndReturnHistoriesByAvgs] at h
    split at h
    · exact absurd h (by simp)
    · rename_i r1 h1
      have a1 := Stcp.updateAndReturnHistoryByAvg_Advances E s _ _ r1 h1
      split at h
      · exact absurd h (by simp)
      · rename_i rs h2
        rw [← Except.ok.inj h]
        exact a1.trans (ih r1.1 rs h2)

theorem Stcp.orKeep_Advances {α σ β : Type} [LinearOrderedField α] (s : Stcp α σ)
    (f : β → Stcp α σ) (r : Except Failure β)
    (h : ∀ b, r = Except.ok b → Stcp.Advances s (f b)) : Stcp.Advances s (s.orKeep f r) := by
  cases r with
  | error err => exact Stcp.Advances.refl s
  | ok b => exact h b rfl

theorem Stcp.perform_Advances {α σ : Type} [LinearOrderedField α] (E : IGeneralE α σ)
    (s : Stcp α σ) (c : Call α) : Stcp.Advances s (s.perform E c) := by
  cases c with
  | updateLogValue x => exact Stcp.updateLogValue_Advances E s x
  | updateLogValues xs => exact Stcp.updateLogValues_Advances E s xs
  | updateLogValuesUntilStop xs => exact Stcp.updateLogValuesUntilStop_Advances E s xs
  | updateLogValueByAvg x_bar n =>
    exact Stcp.orKeep_Advances s id _ (fun b hb => Stcp.updateLogValueByAvg_Advances E s b _ _ hb)
  | updateLogValuesByAvgs ps =>
    exact Stcp.orKeep_Advances s id _ (fun b hb => Stcp.updateLogValuesByAvgs_Advances E s b ps hb)
  | updateLogValuesUntilStopByAvgs ps =>
    exact Stcp.orKeep_Advances s id _
      (fun b hb => Stcp.updateLogValuesUntilStopByAvgs_Advances E s b ps hb)
  | updateAndReturnHistory x => exact Stcp.updateLogValue_Advances E s x
  | updateAndReturnHistories xs =>
    simp only [Stcp.perform, Stcp.updateAndReturnHistories_fst]
    exact Stcp.updateLogValues_Advances E s xs
  | updateAndReturnHistoryByAvg x_bar n =>
    exact Stcp.orKeep_Advances s Prod.fst _
      (fun b hb => Stcp.updateAndReturnHistoryByAvg_Advances E s _ _ b hb)
  | updateAndReturnHistoriesByAvgs ps =>
    exact Stcp.orKeep_Advances s Prod.fst _
      (fun b hb => Stcp.updateAndReturnHistoriesByAvgs_Advances E s ps b hb)

theorem Stcp.run_Advances {α σ : Type} [LinearOrderedField α] (E : IGeneralE α σ)
    (s : Stcp α σ) (cs : List (Call α)) : Stcp.Advances s (s.run E cs) := by
  induction cs generalizing s with
  | nil => exact Stcp.Advances.refl s
  | cons c cs ih =>
    simp only [Stcp.run]
    exact (Stcp.perform_Advances E s c).trans (ih _)

/-! ## Lemmas on binary64 rounding -/

theorem round_binary64_zero : round_binary64 (0 : ℝ) = 0 := by
  simp [round_binary64]

theorem int_log_two_eq (x : ℝ) (e : ℤ) (hx : 0 < x) (h1 : (2 : ℝ) ^ e ≤ x)
    (h2 : x < (2 : ℝ) ^ (e + 1)) : Int.log 2 |x| = e := by
  rw [abs_of_pos hx]
  apply le_antisymm
  · have h := (Int.lt_zpow_iff_log_lt (b := 2) (by norm_num) hx (x := e + 1)).mp
      (by exact_mod_cast h2)
    omega
  · exact (Int.zpow_le_iff_le_log (b := 2) (by norm_num) hx).mp (by exact_mod_cast h1)

theorem round_binary64_of_floor (x : ℝ) (e f : ℤ) (hx : 0 < x) (he : -1022 ≤ e)
    (h1 : (2 : ℝ) ^ e ≤ x) (h2 : x < (2 : ℝ) ^ (e + 1))
    (hf : (f : ℝ) ≤ x / (2 : ℝ) ^ (e - 52)) (hr : x / (2 : ℝ) ^ (e - 52) - f < 1 / 2) :
    round_binary64 x = (f : ℝ) * (2 : ℝ) ^ (e - 52) := by
  have hlog := int_log_two_eq x e hx h1 h2
  have hfl : ⌊x / (2 : ℝ) ^ (e - 52)⌋ = f :=
    Int.floor_eq_iff.mpr ⟨hf, by linarith⟩
  unfold round_binary64
  rw [if_neg hx.ne']
  simp only [hlog, max_eq_left he, hfl, if_pos hr]

theorem round_binary64_bounds (x : ℝ) (e : ℤ) (hx : 0 < x) (he : -1022 ≤ e)
    (h1 : (2 : ℝ) ^ e ≤ x) (h2 : x < (2 : ℝ) ^ (e + 1)) :
    (2 : ℝ) ^ e ≤ round_binary64 x ∧ round_binary64 x ≤ (2 : ℝ) ^ (e + 1) := by
  have hlog := int_log_two_eq x e hx h1 h2
  have hq : (0 : ℝ) < (2 : ℝ) ^ (e - 52) := zpow_pos (by norm_num) _
  have hqe : (2 : ℝ) ^ e = (2 : ℝ) ^ (52 : ℤ) * (2 : ℝ) ^ (e - 52) := by
    rw [← zpow_add₀ (by norm_num : (2 : ℝ) ≠ 0)]
    congr 1
    ring
  have hqe1 : (2 : ℝ) ^ (e + 1) = (2 : ℝ) ^ (53 : ℤ) * (2 : ℝ) ^ (e - 52) := by
    rw [← zpow_add₀ (by norm_num : (2 : ℝ) ≠ 0)]
    congr 1
    ring
  have hy1 : (2 : ℝ) ^ (52 : ℤ) ≤ x / (2 : ℝ) ^ (e - 52) := by
    rw [le_div_iff₀ hq, ← hqe]
    exact h1
  have hy2 : x / (2 : ℝ) ^ (e - 52) < (2 : ℝ) ^ (53 : ℤ) := by
    rw [div_lt_iff₀ hq, ← hqe1]
    exact h2
  have hf1 : (2 : ℤ) ^ 52 ≤ ⌊x / (2 : ℝ) ^ (e - 52)⌋ := by
    apply Int.le_floor.mpr
    have : (((2 : ℤ) ^ 52 : ℤ) : ℝ) = (2 : ℝ) ^ (52 : ℤ) := by norm_num
    rw [this]
    exact hy1
  have hf2 : ⌊x / (2 : ℝ) ^ (e - 52)⌋ < (2 : ℤ) ^ 53 := by
    apply Int.floor_lt.mpr
    have : (((2 : ℤ) ^ 53 : ℤ) : ℝ) = (2 : ℝ) ^ (53 : ℤ) := by norm_num
    rw [this]
    exact hy2
  have key : ∀ n : ℤ, (2 : ℤ) ^ 52 ≤ n → n ≤ (2 : ℤ) ^ 53 →
      (2 : ℝ) ^ e ≤ (n : ℝ) * (2 : ℝ) ^ (e - 52) ∧
        (n : ℝ) * (2 : ℝ) ^ (e - 52) ≤ (2 : ℝ) ^ (e + 1) := by
    intro n hn1 hn2
    have c1 : (2 : ℝ) ^ (52 : ℤ) ≤ (n : ℝ) := by
      have h52 : (((2 : ℤ) ^ 52 : ℤ) : ℝ) ≤ (n : ℝ) := by exact_mod_cast hn1
      have e52 : (((2 : ℤ) ^ 52 : ℤ) : ℝ) = (2 : ℝ) ^ (52 : ℤ) := by norm_num
      rw [← e52]
      exact h52
    have c2 : (n : ℝ) ≤ (2 : ℝ) ^ (53 : ℤ) := by
      have h53 : (n : ℝ) ≤ (((2 : ℤ) ^ 53 : ℤ) : ℝ) := by exact_mod_cast hn2
      have e53 : (((2 : ℤ) ^ 53 : ℤ) : ℝ) = (2 : ℝ) ^ (53 : ℤ) := by norm_num
      rw [← e53]
      exact h53
    rw [hqe, hqe1]
    exact ⟨mul_le_mul_of_nonneg_right c1 hq.le, mul_le_mul_of_nonneg_right c2 hq.le⟩
  unfold round_binary64
  rw [if_neg hx.ne']
  simp only [hlog, max_eq_left he]
  split
  · exact key _ hf1 hf2.le
  · split
    · exact key _ (by omega) (by omega)
    · split
      · exact key _ hf1 hf2.le
      · exact key _ (by omega) (by omega)

theorem round_binary64_one : round_binary64 (1 : ℝ) = 1 := by
  have h := round_binary64_of_floor 1 0 ((2 : ℤ) ^ 52) (by norm_num) (by norm_num)
    (by norm_num) (by norm_num) (by norm_num) (by norm_num)
  rw [h]
  norm_num

theorem round_binary64_two : round_binary64 (2 : ℝ) = 2 := by
  have h := round_binary64_of_floor 2 1 ((2 : ℤ) ^ 52) (by norm_num) (by norm_num)
    (by norm_num) (by norm_num) (by norm_num) (by norm_num)
  rw [h]
  norm_num

theorem round_binary64_log_two :
    1 / 2 ≤ round_binary64 (Real.log 2) ∧ round_binary64 (Real.log 2) ≤ 1 := by
  have hlo : (1 / 2 : ℝ) < Real.log 2 := by
    have := Real.log_two_gt_d9
    linarith
  have hhi : Real.log 2 < 1 := by
    have := Real.log_two_lt_d9
    linarith
  have h := round_binary64_bounds (Real.log 2) (-1) (by linarith) (by norm_num)
    (by norm_num; linarith) (by norm_num; linarith)
  norm_num at h
  constructor
  · linarith [h.1]
  · exact h.2

theorem round_binary64_absorbs (l : ℝ) (h0 : 0 ≤ l) (h1 : l ≤ 1) :
    round_binary64 (l + 2 ^ 60) = 2 ^ 60 := by
  have h := round_binary64_of_floor (l + 2 ^ 60) 60 ((2 : ℤ) ^ 52) (by positivity)
    (by norm_num) (by norm_num; linarith) (by norm_num; linarith)
    (by norm_num; linarith) (by norm_num; linarith)
  rw [h]
  norm_num

theorem round_binary64_ge_half (l : ℝ) (h0 : 1 / 2 ≤ l) (h1 : l ≤ 1) :
    1 / 2 ≤ round_binary64 l := by
  rcases lt_or_eq_of_le h1 with hlt | heq
  · have h := round_binary64_bounds l (-1) (by linarith) (by norm_num)
      (by norm_num; linarith) (by norm_num; linarith)
    norm_num at h
    linarith [h.1]
  · rw [heq, round_binary64_one]
    norm_num

theorem sum_exp_loop_rounded_pair (a : ℝ) :
    sum_exp_loop_rounded round_binary64 (fun t => round_binary64 (Real.exp t)) a 0 [a, a]
      = 2 := by
  simp only [sum_exp_loop_rounded, sub_self, round_binary64_zero, Real.exp_zero,
    round_binary64_one, zero_add]
  norm_num [round_binary64_two]

theorem sum_exp_loop_rounded_le {α : Type} [LinearOrderedField α] (rnd exp : α → α)
    (m : α) (N : ℕ) (hmono : ∀ a b : α, a ≤ b → rnd a ≤ rnd b)
    (hnat : ∀ n : ℕ, n ≤ N → rnd (n : α) = n) (ys : List α) (s : α) (k : ℕ)
    (hs : s ≤ (k : α)) (hk : k + ys.length ≤ N)
    (hle : ∀ y ∈ ys, exp (rnd (y - m)) ≤ 1) :
    sum_exp_loop_rounded rnd exp m s ys ≤ ((k + ys.length : ℕ) : α) := by
  induction ys generalizing s k with
  | nil => simpa [sum_exp_loop_rounded] using hs
  | cons y ys ih =>
    simp only [sum_exp_loop_rounded, List.length_cons]
    simp only [List.length_cons] at hk
    have hy := hle y (List.mem_cons_self _ _)
    have h1 : rnd (s + exp (rnd (y - m))) ≤ ((k + 1 : ℕ) : α) := by
      rw [← hnat (k + 1) (by omega)]
      apply hmono
      push_cast
      linarith
    have := ih _ (k + 1) h1 (by omega) (fun z hz => hle z (List.mem_cons_of_mem _ hz))
    have e : k + 1 + ys.length = k + (ys.length + 1) := by omega
    rw [e] at this
    exact this

theorem sum_exp_loop_rounded_ge_of_ge {α : Type} [LinearOrderedField α] (rnd exp : α → α)
    (m : α) (hmono : ∀ a b : α, a ≤ b → rnd a ≤ rnd b) (hone : rnd 1 = 1)
    (ys : List α) (s : α) (hs : 1 ≤ s) (hnn : ∀ y ∈ ys, 0 ≤ exp (rnd (y - m))) :
    1 ≤ sum_exp_loop_rounded rnd exp m s ys := by
  induction ys generalizing s with
  | nil => simpa [sum_exp_loop_rounded] using hs
  | cons y ys ih =>
    simp only [sum_exp_loop_rounded]
    apply ih _ _ (fun z hz => hnn z (List.mem_cons_of_mem _ hz))
    have hy := hnn y (List.mem_cons_self _ _)
    rw [← hone]
    apply hmono
    linarith

theorem sum_exp_loop_rounded_ge {α : Type} [LinearOrderedField α] (rnd exp : α → α)
    (m : α) (hmono : ∀ a b : α, a ≤ b → rnd a ≤ rnd b) (hzero : rnd 0 = 0)
    (hone : rnd 1 = 1) (ys : List α) (s : α) (hs : 0 ≤ s) (hm : m ∈ ys)
    (hmax : exp (rnd (m - m)) = 1) (hnn : ∀ y ∈ ys, 0 ≤ exp (rnd (y - m))) :
    1 ≤ sum_exp_loop_rounded rnd exp m s ys := by
  induction ys generalizing s with
  | nil => exact absurd hm (List.not_mem_nil _)
  | cons y ys ih =>
    simp only [sum_exp_loop_rounded]
    have hy := hnn y (List.mem_cons_self _ _)
    have htail : ∀ z ∈ ys, 0 ≤ exp (rnd (z - m)) :=
      fun z hz => hnn z (List.mem_cons_of_mem _ hz)
    rcases List.mem_cons.mp hm with heq | hmem
    · apply sum_exp_loop_rounded_ge_of_ge rnd exp m hmono hone ys _ _ htail
      rw [← heq, hmax, ← hone]
      apply hmono
      linarith
    · apply ih _ _ hmem htail
      rw [← hzero]
      apply hmono
      linarith

theorem logSumExp_rounded_id {α : Type} [LinearOrderedField α] (exp log : α → α)
    (xs : List α) : logSumExp_rounded id exp log xs = logSumExp exp log xs := by
  have hloop : ∀ (m : α) (ys : List α) (s : α),
      sum_exp_loop_rounded id exp m s ys = sum_exp_loop exp m s ys := by
    intro m ys
    induction ys with
    | nil => intro s; rfl
    | cons y ys ih => intro s; simp only [sum_exp_loop_rounded, sum_exp_loop, id, ih]
  simp only [logSumExp_rounded, logSumExp, hloop, id]

/-! ## Theorems on `logSumExp` -/

/-- C1: for every non-empty sequence `xs` of reals, `logSumExp xs` returns
`log (Σ exp xᵢ)` (an equality under exact real arithmetic). -/
theorem logSumExp_eq_log_sum_exp (xs : List ℝ) (h : xs ≠ []) :
    logSumExp Real.exp Real.log xs = Except.ok (Real.log ((xs.map Real.exp).sum)) :=
  logSumExp_closed xs h

theorem logSumExp_eq_log_sum_exp_witness :
    ([1, 2] : List ℝ) ≠ [] ∧
      logSumExp Real.exp Real.log [1, 2]
        = Except.ok (Real.log (([1, 2] : List ℝ).map Real.exp).sum) :=
  ⟨by simp, logSumExp_eq_log_sum_exp [1, 2] (by simp)⟩

/-- C2: `logSumExp` on the empty sequence fails: it throws the `std::runtime_error` of the
emptiness guard (the error the specification names `InvalidArgument`) and returns no
value, whatever the scalar type and the functions `exp`, `log`. -/
theorem logSumExp_nil_fails {α : Type} [LinearOrderedField α] (exp log : α → α) :
    logSumExp exp log ([] : List α)
        = Except.error
            (Exception.runtime_error "Empty vector is not allowed for the logSumExp function.")
      ∧ ∀ v : α, logSumExp exp log ([] : List α) ≠ Except.ok v := by
  constructor
  · rfl
  · intro v hv
    simp [logSumExp, max_element] at hv

/-- C7, counterexample: on the sequence `[0, -1000]`, with `std::exp` underflowing as
on binary64, the maximum is `0` and the term `exp (-1000 - 0)` is exactly `0`, so the
terms do not all lie in `(0, 1]` and the claim as stated fails. -/
theorem logSumExp_term_underflows_to_zero :
    max_element ([0, -1000] : List ℝ) = some 0 ∧
      exp_underflow Real.exp ((-1000 : ℝ) - 0) = 0 ∧
      ¬ ∃ max_x : ℝ, max_element ([0, -1000] : List ℝ) = some max_x ∧
        max_x ∈ ([0, -1000] : List ℝ) ∧
        (∀ x ∈ ([0, -1000] : List ℝ), x - max_x ≤ 0 ∧
          0 < exp_underflow Real.exp (x - max_x) ∧
          exp_underflow Real.exp (x - max_x) ≤ 1) ∧
        1 ≤ sum_exp_loop (exp_underflow Real.exp) max_x 0 [0, -1000] ∧
        sum_exp_loop (exp_underflow Real.exp) max_x 0 [0, -1000]
          ≤ ((([0, -1000] : List ℝ).length : ℕ) : ℝ) ∧
        logSumExp (exp_underflow Real.exp) Real.log [0, -1000]
          = Except.ok
              (Real.log (sum_exp_loop (exp_underflow Real.exp) max_x 0 [0, -1000]) + max_x) := by
  have hmax : max_element ([0, -1000] : List ℝ) = some 0 := by
    norm_num [max_element, max_element_loop]
  have hterm : exp_underflow Real.exp ((-1000 : ℝ) - 0) = 0 := by
    norm_num [exp_underflow]
  refine ⟨hmax, hterm, ?_⟩
  rintro ⟨max_x, hm, -, hall, -⟩
  rw [hmax] at hm
  have hm0 : max_x = 0 := (Option.some.inj hm).symm
  subst hm0
  have h := (hall (-1000) (by simp)).2.1
  rw [hterm] at h
  exact lt_irrefl _ h

/-- C7, amended: for every non-empty sequence `xs`, every rounding `rnd` that is monotone
and exact on the naturals up to `len xs` (the identity, for exact arithmetic, is one),
and every `exp` with `exp 0 = 1` and `0 ≤ exp t ≤ 1` for `t ≤ 0` (so `exp` may underflow
to `0`), the run of `logSumExp` is safe: the maximum `max_x` exists and is an element of
`xs`, every exponent argument is `≤ 0`, every term lies in `[0, 1]`, the term of the
maximum is `1`, the accumulated `sum_exp` satisfies `1 ≤ sum_exp ≤ len xs`, and the call
returns `log sum_exp + max_x` (rounded) without raising. -/
theorem logSumExp_intermediates_bounded {α : Type} [LinearOrderedField α]
    (rnd exp log : α → α) (xs : List α) (h : xs ≠ [])
    (hmono : ∀ a b : α, a ≤ b → rnd a ≤ rnd b)
    (hnat : ∀ n : ℕ, n ≤ xs.length → rnd (n : α) = n)
    (hexp0 : exp 0 = 1) (hexp : ∀ t : α, t ≤ 0 → 0 ≤ exp t ∧ exp t ≤ 1) :
    ∃ max_x : α, max_element xs = some max_x ∧ max_x ∈ xs ∧
      (∀ x ∈ xs, rnd (x - max_x) ≤ 0 ∧
        0 ≤ exp (rnd (x - max_x)) ∧ exp (rnd (x - max_x)) ≤ 1) ∧
      exp (rnd (max_x - max_x)) = 1 ∧
      1 ≤ sum_exp_loop_rounded rnd exp max_x 0 xs ∧
      sum_exp_loop_rounded rnd exp max_x 0 xs ≤ ((xs.length : ℕ) : α) ∧
      logSumExp_rounded rnd exp log xs
        = Except.ok (rnd (log (sum_exp_loop_rounded rnd exp max_x 0 xs) + max_x)) := by
  obtain ⟨m, hm, hmem, hle⟩ := max_element_of_ne_nil xs h
  have hlen : 1 ≤ xs.length := by
    cases xs with
    | nil => exact absurd rfl h
    | cons x xs => simp
  have hzero : rnd 0 = 0 := by simpa using hnat 0 (Nat.zero_le _)
  have hone : rnd 1 = 1 := by simpa using hnat 1 hlen
  have harg : ∀ x ∈ xs, rnd (x - m) ≤ 0 := by
    intro x hx
    rw [← hzero]
    apply hmono
    have := hle x hx
    linarith
  have hterm : ∀ x ∈ xs, 0 ≤ exp (rnd (x - m)) ∧ exp (rnd (x - m)) ≤ 1 :=
    fun x hx => hexp _ (harg x hx)
  have hmaxterm : exp (rnd (m - m)) = 1 := by rw [sub_self, hzero, hexp0]
  refine ⟨m, hm, hmem, fun x hx => ⟨harg x hx, hterm x hx⟩, hmaxterm, ?_, ?_, ?_⟩
  · exact sum_exp_loop_rounded_ge rnd exp m hmono hzero hone xs 0 (le_refl _) hmem hmaxterm
      (fun y hy => (hterm y hy).1)
  · have := sum_exp_loop_rounded_le rnd exp m xs.length hmono hnat xs 0 0 (by simp)
      (by simp) (fun y hy => (hterm y hy).2)
    simpa using this
  · simp only [logSumExp_rounded, hm]

theorem logSumExp_intermediates_bounded_witness :
    ([0, -1000] : List ℝ) ≠ [] ∧
    (∀ a b : ℝ, a ≤ b → id a ≤ id b) ∧
    (∀ n : ℕ, n ≤ ([0, -1000] : List ℝ).length → id (n : ℝ) = n) ∧
    exp_underflow Real.exp 0 = 1 ∧
    (∀ t : ℝ, t ≤ 0 → 0 ≤ exp_underflow Real.exp t ∧ exp_underflow Real.exp t ≤ 1) ∧
    ∃ max_x : ℝ, max_element ([0, -1000] : List ℝ) = some max_x ∧
      max_x ∈ ([0, -1000] : List ℝ) ∧
      (∀ x ∈ ([0, -1000] : List ℝ), id (x - max_x) ≤ 0 ∧
        0 ≤ exp_underflow Real.exp (id (x - max_x)) ∧
        exp_underflow Real.exp (id (x - max_x)) ≤ 1) ∧
      exp_underflow Real.exp (id (max_x - max_x)) = 1 ∧
      1 ≤ sum_exp_loop_rounded id (exp_underflow Real.exp) max_x 0 [0, -1000] ∧
      sum_exp_loop_rounded id (exp_underflow Real.exp) max_x 0 [0, -1000]
        ≤ ((([0, -1000] : List ℝ).length : ℕ) : ℝ) ∧
      logSumExp_rounded id (exp_underflow Real.exp) Real.log [0, -1000]
        = Except.ok
            (id (Real.log (sum_exp_loop_rounded id (exp_underflow Real.exp) max_x 0
              [0, -1000]) + max_x)) :=
  have hmono : ∀ a b : ℝ, a ≤ b → id a ≤ id b := fun _ _ hab => hab
  have hnat : ∀ n : ℕ, n ≤ ([0, -1000] : List ℝ).length → id (n : ℝ) = n :=
    fun _ _ => rfl
  have hexp0 : exp_underflow Real.exp 0 = 1 := by norm_num [exp_underflow]
  have hexp : ∀ t : ℝ, t ≤ 0 →
      0 ≤ exp_underflow Real.exp t ∧ exp_underflow Real.exp t ≤ 1 := by
    intro t ht
    unfold exp_underflow
    split
    · exact ⟨le_refl _, zero_le_one⟩
    · exact ⟨(Real.exp_pos t).le, Real.exp_le_one_iff.mpr ht⟩
  ⟨by simp, hmono, hnat, hexp0, hexp,
    logSumExp_intermediates_bounded id (exp_underflow Real.exp) Real.log [0, -1000]
      (by simp) hmono hnat hexp0 hexp⟩

/-- C9, counterexample: on binary64 (every arithmetic result rounded to nearest even,
`std::exp` and `std::log` correctly rounded) take `xs = [2^60, 2^60]` and `c = -2^60`.
`logSumExp xs` returns `2^60` (the term `log 2` is absorbed), so `logSumExp xs + c` is
`0`, while `logSumExp` of `[x + c | x ∈ xs] = [0, 0]` returns a value `≥ 1/2`: the shift
equality fails. -/
theorem logSumExp_rounded_shift_fails :
    logSumExp_rounded round_binary64 (fun t => round_binary64 (Real.exp t))
        (fun t => round_binary64 (Real.log t)) ([2 ^ 60, 2 ^ 60] : List ℝ)
      = Except.ok (2 ^ 60) ∧
    (∃ w : ℝ,
      logSumExp_rounded round_binary64 (fun t => round_binary64 (Real.exp t))
          (fun t => round_binary64 (Real.log t))
          (([2 ^ 60, 2 ^ 60] : List ℝ).map (fun x => x + -(2 ^ 60)))
        = Except.ok w ∧
      1 / 2 ≤ w ∧ w ≠ 2 ^ 60 + -(2 ^ 60) ∧ w ≠ round_binary64 (2 ^ 60 + -(2 ^ 60))) ∧
    ¬ ∃ v : ℝ,
      logSumExp_rounded round_binary64 (fun t => round_binary64 (Real.exp t))
          (fun t => round_binary64 (Real.log t)) ([2 ^ 60, 2 ^ 60] : List ℝ)
        = Except.ok v ∧
      logSumExp_rounded round_binary64 (fun t => round_binary64 (Real.exp t))
          (fun t => round_binary64 (Real.log t))
          (([2 ^ 60, 2 ^ 60] : List ℝ).map (fun x => x + -(2 ^ 60)))
        = Except.ok (v + -(2 ^ 60)) := by
  obtain ⟨hl1, hl2⟩ := round_binary64_log_two
  have hxs : logSumExp_rounded round_binary64 (fun t => round_binary64 (Real.exp t))
      (fun t => round_binary64 (Real.log t)) ([2 ^ 60, 2 ^ 60] : List ℝ)
      = Except.ok (2 ^ 60) := by
    have hmax : max_element ([2 ^ 60, 2 ^ 60] : List ℝ) = some (2 ^ 60) := by
      simp [max_element, max_element_loop]
    simp only [logSumExp_rounded, hmax, sum_exp_loop_rounded_pair]
    rw [round_binary64_absorbs _ (by linarith) hl2]
  have hys : logSumExp_rounded round_binary64 (fun t => round_binary64 (Real.exp t))
      (fun t => round_binary64 (Real.log t))
      (([2 ^ 60, 2 ^ 60] : List ℝ).map (fun x => x + -(2 ^ 60)))
      = Except.ok (round_binary64 (round_binary64 (Real.log 2))) := by
    have hmap : (([2 ^ 60, 2 ^ 60] : List ℝ).map (fun x => x + -(2 ^ 60))) = [0, 0] := by
      simp
    have hmax : max_element ([0, 0] : List ℝ) = some 0 := by
      simp [max_element, max_element_loop]
    rw [hmap]
    simp only [logSumExp_rounded, hmax, sum_exp_loop_rounded_pair, add_zero]
  have hw := round_binary64_ge_half _ hl1 hl2
  refine ⟨hxs, ⟨_, hys, hw, ?_, ?_⟩, ?_⟩
  · intro heq
    rw [heq] at hw
    norm_num at hw
  · intro heq
    rw [heq] at hw
    norm_num [round_binary64_zero] at hw
  · rintro ⟨v, hv1, hv2⟩
    rw [hxs] at hv1
    have hv : v = 2 ^ 60 := (Except.ok.inj hv1).symm
    rw [hys, hv] at hv2
    have heq := Except.ok.inj hv2
    rw [heq] at hw
    norm_num at hw

/-- C9, amended: shift equivariance under exact real arithmetic: for every non-empty
sequence `xs` of reals and every real `c`, `logSumExp xs` returns some `v` and
`logSumExp` of `[x + c | x ∈ xs]` returns `v + c`. -/
theorem logSumExp_shift (xs : List ℝ) (c : ℝ) (h : xs ≠ []) :
    ∃ v : ℝ, logSumExp Real.exp Real.log xs = Except.ok v ∧
      logSumExp Real.exp Real.log (xs.map (fun x => x + c)) = Except.ok (v + c) := by
  refine ⟨_, logSumExp_closed xs h, ?_⟩
  have hne : xs.map (fun x => x + c) ≠ [] := by simpa using h
  rw [logSumExp_closed _ hne]
  congr 1
  have hsum : ((xs.map (fun x => x + c)).map Real.exp).sum
      = Real.exp c * (xs.map Real.exp).sum := by
    clear h hne
    induction xs with
    | nil => simp
    | cons x xs ih =>
      simp only [List.map_cons, List.sum_cons, ih, Real.exp_add]
      ring
  rw [hsum, Real.log_mul (Real.exp_pos _).ne' (sum_exp_pos xs h).ne', Real.log_exp]
  ring

theorem logSumExp_shift_witness :
    ([1, 2] : List ℝ) ≠ [] ∧
    ∃ v : ℝ, logSumExp Real.exp Real.log [1, 2] = Except.ok v ∧
      logSumExp Real.exp Real.log (([1, 2] : List ℝ).map (fun x => x + 5))
        = Except.ok (v + 5) :=
  ⟨by simp, logSumExp_shift [1, 2] 5 (by simp)⟩

/-- C10: order independence: for every non-empty sequence `xs` of reals and every
permutation `ys` of `xs`, `logSumExp ys` and `logSumExp xs` return the same value. -/
theorem logSumExp_perm (xs ys : List ℝ) (h : xs ≠ []) (hp : ys.Perm xs) :
    ∃ v : ℝ, logSumExp Real.exp Real.log xs = Except.ok v ∧
      logSumExp Real.exp Real.log ys = Except.ok v := by
  refine ⟨_, logSumExp_closed xs h, ?_⟩
  have hne : ys ≠ [] := by
    intro hy
    rw [hy] at hp
    exact h (List.nil_perm.mp hp)
  rw [logSumExp_closed ys hne, (hp.map Real.exp).sum_eq]

theorem logSumExp_perm_witness :
    ([1, 2] : List ℝ) ≠ [] ∧ ([2, 1] : List ℝ).Perm [1, 2] ∧
    ∃ v : ℝ, logSumExp Real.exp Real.log [1, 2] = Except.ok v ∧
      logSumExp Real.exp Real.log [2, 1] = Except.ok v :=
  ⟨by simp, List.Perm.swap 1 2 [],
    logSumExp_perm [1, 2] [2, 1] (by simp) (List.Perm.swap 1 2 [])⟩

/-! ## Theorems on the controller -/

/-- C3: monotone latch.  Start from a freshly constructed controller or from the result
of `reset()`, and apply any sequence `cs` of update calls.  If the controller is then
stopped, `getStoppedTime() ≤ getTime()`, and after any further sequence `cs2` of update
calls (single, many, until-stop, avg-based or history-returning) the controller is still
stopped with the same `getStoppedTime()`. -/
theorem IStcp_monotone_latch {α σ : Type} [LinearOrderedField α] (E : IGeneralE α σ)
    (sentinel threshold : α) (e0 : σ) (s0 init : Stcp α σ) (cs cs2 : List (Call α))
    (hinit : init = Stcp.construct sentinel threshold e0 ∨ init = s0.reset E sentinel)
    (hstop : (init.run E cs).isStopped = true) :
    (init.run E cs).getStoppedTime ≤ (init.run E cs).getTime ∧
      ((init.run E cs).run E cs2).isStopped = true ∧
      ((init.run E cs).run E cs2).getStoppedTime = (init.run E cs).getStoppedTime := by
  have hrun : init.stopped = false := by
    rcases hinit with h | h <;> rw [h] <;> rfl
  obtain ⟨_, _, a3⟩ := Stcp.run_Advances E init cs
  obtain ⟨_, b2, _⟩ := Stcp.run_Advances E (init.run E cs) cs2
  exact ⟨a3 hrun hstop, b2 hstop⟩

theorem IStcp_monotone_latch_witness :
    ((Stcp.construct (-1) 2 0 : Stcp ℚ ℚ).run sumE
        [Call.updateLogValue 1, Call.updateLogValues [1, 1]]).isStopped = true ∧
    ((Stcp.construct (-1) 2 0 : Stcp ℚ ℚ).run sumE
        [Call.updateLogValue 1, Call.updateLogValues [1, 1]]).getStoppedTime
      ≤ ((Stcp.construct (-1) 2 0 : Stcp ℚ ℚ).run sumE
        [Call.updateLogValue 1, Call.updateLogValues [1, 1]]).getTime ∧
    (((Stcp.construct (-1) 2 0 : Stcp ℚ ℚ).run sumE
        [Call.updateLogValue 1, Call.updateLogValues [1, 1]]).run sumE
        [Call.updateLogValueByAvg 5 2, Call.updateLogValuesUntilStop [7]]).isStopped = true ∧
    (((Stcp.construct (-1) 2 0 : Stcp ℚ ℚ).run sumE
        [Call.updateLogValue 1, Call.updateLogValues [1, 1]]).run sumE
        [Call.updateLogValueByAvg 5 2, Call.updateLogValuesUntilStop [7]]).getStoppedTime
      = ((Stcp.construct (-1) 2 0 : Stcp ℚ ℚ).run sumE
        [Call.updateLogValue 1, Call.updateLogValues [1, 1]]).getStoppedTime :=
  have hstop : ((Stcp.construct (-1) 2 0 : Stcp ℚ ℚ).run sumE
      [Call.updateLogValue 1, Call.updateLogValues [1, 1]]).isStopped = true := by
    norm_num [Stcp.run, Stcp.perform, Stcp.updateLogValue, Stcp.updateLogValues, Stcp.latch,
      Stcp.construct, sumE, Stcp.isStopped]
  ⟨hstop, IStcp_monotone_latch sumE (-1) 2 0 (Stcp.construct (-1) 2 0)
    (Stcp.construct (-1) 2 0) [Call.updateLogValue 1, Call.updateLogValues [1, 1]]
    [Call.updateLogValueByAvg 5 2, Call.updateLogValuesUntilStop [7]] (Or.inl rfl) hstop⟩

/-- C4: from every controller state `s` and for every sequence `xs`,
`updateLogValuesUntilStop(xs)` consumes a prefix of `xs` of some length `k ≤ len xs`: it
leaves the controller where `updateLogValues` on the first `k` elements leaves it, with
`getTime()` advanced by exactly `k`; when `k > 0`, `getLogValue()` is the `k`-th entry of
the history that `updateAndReturnHistories(xs)` returns from `s`; `k < len xs` only if
the controller is stopped; and the controller is not stopped after any shorter non-empty
prefix. -/
theorem updateLogValuesUntilStop_consumes_initial_segment {α σ : Type} [LinearOrderedField α]
    (E : IGeneralE α σ) (s : Stcp α σ) (xs : List α) :
    ∃ k : ℕ, k ≤ xs.length ∧
      s.updateLogValuesUntilStop E xs = s.updateLogValues E (xs.take k) ∧
      (s.updateLogValuesUntilStop E xs).getTime = s.getTime + (k : α) ∧
      (0 < k → (s.updateAndReturnHistories E xs).2[k - 1]?
          = some (s.updateLogValuesUntilStop E xs).getLogValue) ∧
      (k < xs.length → (s.updateLogValuesUntilStop E xs).isStopped = true) ∧
      (∀ j : ℕ, 0 < j → j < k → (s.updateLogValues E (xs.take j)).isStopped = false) := by
  induction xs generalizing s with
  | nil =>
    refine ⟨0, le_refl _, rfl, ?_, ?_, ?_, ?_⟩
    · simp [Stcp.updateLogValuesUntilStop]
    · intro h; exact absurd h (lt_irrefl _)
    · intro h; exact absurd h (by simp)
    · intro j h1 h2; omega
  | cons x xs ih =>
    by_cases hs : (s.updateLogValue E x).stopped = true
    · refine ⟨1, by simp, ?_, ?_, ?_, ?_, ?_⟩
      · simp [Stcp.updateLogValuesUntilStop, Stcp.updateLogValues, hs]
      · simp [Stcp.updateLogValuesUntilStop, hs, Stcp.getTime, Stcp.updateLogValue_time]
      · intro _
        simp [Stcp.updateLogValuesUntilStop, Stcp.updateAndReturnHistories,
          Stcp.updateAndReturnHistory, hs]
      · intro _
        simp [Stcp.updateLogValuesUntilStop, hs, Stcp.isStopped]
      · intro j h1 h2; omega
    · obtain ⟨k, hk, heq, htime, hhist, hstop, hfirst⟩ := ih (s.updateLogValue E x)
      have hunf : s.updateLogValuesUntilStop E (x :: xs)
          = (s.updateLogValue E x).updateLogValuesUntilStop E xs := by
        simp [Stcp.updateLogValuesUntilStop, hs]
      refine ⟨k + 1, by simpa using hk, ?_, ?_, ?_, ?_, ?_⟩
      · rw [hunf, heq]
        simp [Stcp.updateLogValues]
      · rw [hunf, htime]
        simp only [Stcp.getTime, Stcp.updateLogValue_time]
        push_cast
        ring
      · intro _
        rw [hunf]
        rcases Nat.eq_zero_or_pos k with hk0 | hkpos
        · subst hk0
          rw [heq]
          simp [Stcp.updateAndReturnHistories, Stcp.updateAndReturnHistory,
            Stcp.updateLogValues]
        · rw [← hhist hkpos]
          obtain ⟨k1, rfl⟩ : ∃ k1, k = k1 + 1 := ⟨k - 1, by omega⟩
          simp [Stcp.updateAndReturnHistories, Stcp.updateAndReturnHistory]
      · intro hlt
        rw [hunf]
        exact hstop (by simpa using hlt)
      · intro j h1 h2
        obtain ⟨j1, rfl⟩ : ∃ j1, j = j1 + 1 := ⟨j - 1, by omega⟩
        rcases Nat.eq_zero_or_pos j1 with hj0 | hjpos
        · subst hj0
          simpa [Stcp.updateLogValues, Stcp.isStopped] using hs
        · have := hfirst j1 hjpos (by omega)
          simpa [Stcp.updateLogValues] using this

theorem updateLogValuesUntilStop_consumes_initial_segment_witness :
    ∃ k : ℕ, k ≤ ([1, 1, 1, 1] : List ℚ).length ∧
      (Stcp.construct (-1) 2 0 : Stcp ℚ ℚ).updateLogValuesUntilStop sumE [1, 1, 1, 1]
        = (Stcp.construct (-1) 2 0 : Stcp ℚ ℚ).updateLogValues sumE
            (([1, 1, 1, 1] : List ℚ).take k) ∧
      ((Stcp.construct (-1) 2 0 : Stcp ℚ ℚ).updateLogValuesUntilStop sumE
          [1, 1, 1, 1]).getTime
        = (Stcp.construct (-1) 2 0 : Stcp ℚ ℚ).getTime + (k : ℚ) ∧
      (0 < k →
        ((Stcp.construct (-1) 2 0 : Stcp ℚ ℚ).updateAndReturnHistories sumE
            [1, 1, 1, 1]).2[k - 1]?
          = some ((Stcp.construct (-1) 2 0 : Stcp ℚ ℚ).updateLogValuesUntilStop sumE
              [1, 1, 1, 1]).getLogValue) ∧
      (k < ([1, 1, 1, 1] : List ℚ).length →
        ((Stcp.construct (-1) 2 0 : Stcp ℚ ℚ).updateLogValuesUntilStop sumE
          [1, 1, 1, 1]).isStopped = true) ∧
      (∀ j : ℕ, 0 < j → j < k →
        ((Stcp.construct (-1) 2 0 : Stcp ℚ ℚ).updateLogValues sumE
          (([1, 1, 1, 1] : List ℚ).take j)).isStopped = false) :=
  updateLogValuesUntilStop_consumes_initial_segment sumE (Stcp.construct (-1) 2 0)
    [1, 1, 1, 1]

/-- C5: for every sequence `xs` (the empty one included) and every controller state `s`,
`updateAndReturnHistories(xs)` returns exactly `len xs` values, its `i`-th entry is the
`getLogValue()` reached by applying `updateLogValue` to the first `i + 1` elements of `xs`
in order (with no early exit), and it leaves the controller in the state in which
`updateLogValues(xs)` leaves it. -/
theorem updateAndReturnHistories_spec {α σ : Type} [LinearOrderedField α]
    (E : IGeneralE α σ) (s : Stcp α σ) (xs : List α) :
    (s.updateAndReturnHistories E xs).2.length = xs.length ∧
      (∀ i : ℕ, i < xs.length →
        (s.updateAndReturnHistories E xs).2[i]?
          = some (s.updateLogValues E (xs.take (i + 1))).getLogValue) ∧
      (s.updateAndReturnHistories E xs).1 = s.updateLogValues E xs := by
  refine ⟨?_, ?_, Stcp.updateAndReturnHistories_fst E s xs⟩
  · induction xs generalizing s with
    | nil => rfl
    | cons x xs ih => simp [Stcp.updateAndReturnHistories, ih]
  · induction xs generalizing s with
    | nil => intro i hi; exact absurd hi (by simp)
    | cons x xs ih =>
      intro i hi
      cases i with
      | zero =>
        simp [Stcp.updateAndReturnHistories, Stcp.updateAndReturnHistory,
          Stcp.updateLogValues]
      | succ i =>
        have := ih (s.updateLogValue E x) i (by simpa using hi)
        simpa [Stcp.updateAndReturnHistories, Stcp.updateAndReturnHistory,
          Stcp.updateLogValues] using this

theorem updateAndReturnHistories_spec_witness :
    ((Stcp.construct (-1) 2 0 : Stcp ℚ ℚ).updateAndReturnHistories sumE [1, 1, 1]).2.length
        = ([1, 1, 1] : List ℚ).length ∧
      (∀ i : ℕ, i < ([1, 1, 1] : List ℚ).length →
        ((Stcp.construct (-1) 2 0 : Stcp ℚ ℚ).updateAndReturnHistories sumE [1, 1, 1]).2[i]?
          = some ((Stcp.construct (-1) 2 0 : Stcp ℚ ℚ).updateLogValues sumE
              (([1, 1, 1] : List ℚ).take (i + 1))).getLogValue) ∧
      ((Stcp.construct (-1) 2 0 : Stcp ℚ ℚ).updateAndReturnHistories sumE [1, 1, 1]).1
        = (Stcp.construct (-1) 2 0 : Stcp ℚ ℚ).updateLogValues sumE [1, 1, 1] :=
  updateAndReturnHistories_spec sumE (Stcp.construct (-1) 2 0) [1, 1, 1]

/-- C6: after `reset()` on a controller in any state (stopped or not): `getLogValue()` is
0, `isStopped()` is false, `getStoppedTime()` is the sentinel, `getTime()` is 0 and
`getThreshold()` is unchanged; so all five accessors agree with those of a controller
freshly constructed with the same threshold and sentinel. -/
theorem reset_restores_initial {α σ : Type} [LinearOrderedField α] (E : IGeneralE α σ)
    (sentinel : α) (s : Stcp α σ) :
    (s.reset E sentinel).getLogValue = 0 ∧
      (s.reset E sentinel).isStopped = false ∧
      (s.reset E sentinel).getStoppedTime = sentinel ∧
      (s.reset E sentinel).getTime = 0 ∧
      (s.reset E sentinel).getThreshold = s.getThreshold ∧
      ∀ e0 : σ,
        (s.reset E sentinel).getLogValue
            = (Stcp.construct sentinel s.getThreshold e0 : Stcp α σ).getLogValue ∧
          (s.reset E sentinel).getThreshold
            = (Stcp.construct sentinel s.getThreshold e0 : Stcp α σ).getThreshold ∧
          (s.reset E sentinel).isStopped
            = (Stcp.construct sentinel s.getThreshold e0 : Stcp α σ).isStopped ∧
          (s.reset E sentinel).getTime
            = (Stcp.construct sentinel s.getThreshold e0 : Stcp α σ).getTime ∧
          (s.reset E sentinel).getStoppedTime
            = (Stcp.construct sentinel s.getThreshold e0 : Stcp α σ).getStoppedTime :=
  ⟨rfl, rfl, rfl, rfl, rfl, fun _ => ⟨rfl, rfl, rfl, rfl, rfl⟩⟩

end stcp
